import Mathlib

/-!
Verification of the codebase-analysis script
(`skills/project-documentation/scripts/analyze_codebase.py`).

The development shallowly embeds the script's signature-extraction layer:

* Python string helpers `str.strip`, `str.split` and `" ".join` are modelled on
  `List Char` (`pyStrip`, `pySplit`, `pyCollapse`).  One whitespace predicate
  `isWS` (the six ASCII whitespace characters) is used uniformly for the string
  helpers and for the `\s` character class of the patterns.
* Python's `re` backtracking engine, restricted to the constructs the script's
  patterns use (character classes, concatenation, alternation, greedy and lazy
  `*`/`?`, capture groups, `re.DOTALL` semantics for `.`), is embedded as
  `matchList`: a fuel-indexed matcher returning the full list of results in
  Python's backtracking priority order; the first element is the match Python
  would produce.  `finditer` replays `re.finditer`: scan left to right,
  continue after each match.  The fuel `bigFuel` strictly exceeds the depth of
  any backtracking path (every recursive call decreases the pair
  (input length, pattern size) lexicographically, so paths are shorter than
  `(length + 1) * (size + 1)`), hence the fuel never runs out and the
  definitions are exact.
* `PATTERNS`, `LANGUAGE_MAP`, `IGNORE_EXTS`, `MAX_FILE_SIZE_BYTES`,
  `extract_functions` and the per-file part of `generate_tree`
  (`processFile`) are translated line by line from the script.
-/

namespace Analyze

/-- Whitespace predicate shared by the string helpers and the `\s` class.
Python additionally treats some unicode code points as whitespace; the
development fixes the six ASCII whitespace characters, which is the consistent
fragment all analysed inputs and patterns live in. -/
def isWS (c : Char) : Bool :=
  c == ' ' || c == '\t' || c == '\n' || c == '\r' || c == '\x0b' || c == '\x0c'

/-- Python `str.strip()`: drop leading and trailing whitespace. -/
def pyStrip (l : List Char) : List Char :=
  ((l.dropWhile isWS).reverse.dropWhile isWS).reverse

/-- Worker for `pySplit`; `acc` holds the current word reversed. -/
def splitAux : List Char → List Char → List (List Char)
  | [], acc => if acc = [] then [] else [acc.reverse]
  | c :: cs, acc =>
    if isWS c then
      (if acc = [] then splitAux cs [] else acc.reverse :: splitAux cs [])
    else splitAux cs (c :: acc)

/-- Python `str.split()` with no argument: maximal runs of non-whitespace. -/
def pySplit (l : List Char) : List (List Char) := splitAux l []

/-- Python `" ".join(words)`. -/
def joinSp : List (List Char) → List Char
  | [] => []
  | [w] => w
  | w :: ws => w ++ ' ' :: joinSp ws

/-- Python `" ".join(s.split())`: collapse internal whitespace runs to single
spaces and trim — the cleanup the script applies to `args` and `ret`. -/
def pyCollapse (l : List Char) : List Char := joinSp (pySplit l)

/-- One extracted signature: the dict
`{"name": ..., "args": ..., "return": ...}` built by `extract_functions`. -/
structure Sig where
  name : List Char
  args : List Char
  ret : List Char
deriving DecidableEq

/-- Capture-group state of one match: entry `i` is group `i+1` of the Python
match object (`none` = group did not participate). -/
abbrev Caps := List (Option (List Char))

/-- Python `[g for g in match.groups() if g]`: the non-`None`, non-empty
captured groups in group order. -/
def truthyGroups (caps : Caps) : List (List Char) :=
  caps.filterMap fun o =>
    match o with
    | some v => if v = [] then none else some v
    | none => none

/-- Body of the `for match in matches:` loop of `extract_functions`
(lines 70-102 of the script): map the non-empty groups of one match to a
signature, with the language-family-dependent heuristic. Returns `none` when
the filtered group list is empty (`if groups:` fails, nothing is appended). -/
def processMatch (lang : String) (caps : Caps) : Option Sig :=
  match truthyGroups caps with
  | [] => none
  | g0 :: gs =>
    let groups := g0 :: gs
    let funcName := pyStrip g0
    let nar : List Char × List Char × List Char :=
      if lang = "c" ∨ lang = "cpp" then
        if 3 ≤ groups.length then
          (pyStrip (groups.getD 1 []), pyStrip (groups.getD 2 []), pyStrip g0)
        else (funcName, [], [])
      else if lang = "java" then
        (funcName, (if 1 < groups.length then pyStrip (groups.getD 1 []) else []), [])
      else
        (funcName, (if 1 < groups.length then pyStrip (groups.getD 1 []) else []),
          (if 2 < groups.length then pyStrip (groups.getD 2 []) else []))
    some ⟨nar.1, pyCollapse nar.2.1, pyCollapse nar.2.2⟩

/-! ### The regex engine -/

/-- The character classes occurring in the script's patterns.  `\w` is taken in
its ASCII reading, consistently with the identifier classes. -/
inductive CC where
  | any
  | ws
  | notRparen
  | alnumUnd
  | alphaUnd
  | alnumUndLtGt
  | wordBr
  | chr (c : Char)
deriving DecidableEq

/-- Characters of `[a-zA-Z0-9_]`. -/
def alnumUndB (c : Char) : Bool :=
  ('a' ≤ c && c ≤ 'z') || ('A' ≤ c && c ≤ 'Z') || ('0' ≤ c && c ≤ '9') || c == '_'

/-- Characters of `[a-zA-Z_]`. -/
def alphaUndB (c : Char) : Bool :=
  ('a' ≤ c && c ≤ 'z') || ('A' ≤ c && c ≤ 'Z') || c == '_'

/-- Denotation of a character class (with `re.DOTALL`, `.` accepts any
character, newlines included). -/
def ccFun : CC → Char → Bool
  | .any, _ => true
  | .ws, c => isWS c
  | .notRparen, c => c != ')'
  | .alnumUnd, c => alnumUndB c
  | .alphaUnd, c => alphaUndB c
  | .alnumUndLtGt, c => alnumUndB c || c == '<' || c == '>'
  | .wordBr, c => alnumUndB c || c == '<' || c == '>' || c == '[' || c == ']'
  | .chr d, c => c == d

/-- Abstract syntax of the pattern fragment the script uses.  `lzy` selects
lazy (`*?`, `??`) versus greedy repetition. -/
inductive Rx where
  | eps
  | cls (cc : CC)
  | cat (a b : Rx)
  | alt (a b : Rx)
  | opt (lzy : Bool) (r : Rx)
  | star (lzy : Bool) (r : Rx)
  | grp (i : Nat) (r : Rx)
deriving DecidableEq

/-- All results of matching `r` against a prefix of `s`, as
(remaining input, captures) pairs, in Python's backtracking priority order:
alternation prefers the left branch, greedy repetition prefers longer,
lazy repetition prefers shorter.  A repetition iteration that consumes no
input is not continued (Python stops empty repeats the same way).  The fuel
only needs to exceed the backtracking depth; `bigFuel` below always does. -/
def matchList : Nat → Rx → List Char → Caps → List (List Char × Caps)
  | 0, _, _, _ => []
  | Nat.succ n, r, s, c =>
    match r with
    | .eps => [(s, c)]
    | .cls cc =>
      match s with
      | [] => []
      | ch :: t => if ccFun cc ch then [(t, c)] else []
    | .cat a b => (matchList n a s c).flatMap fun p => matchList n b p.1 p.2
    | .alt a b => matchList n a s c ++ matchList n b s c
    | .opt lzy r' =>
      if lzy then (s, c) :: matchList n r' s c else matchList n r' s c ++ [(s, c)]
    | .star lzy r' =>
      let deeper := (matchList n r' s c).flatMap fun p =>
        if p.1.length < s.length then matchList n (.star lzy r') p.1 p.2 else []
      if lzy then (s, c) :: deeper else deeper ++ [(s, c)]
    | .grp i r' =>
      (matchList n r' s c).map fun p =>
        (p.1, p.2.set i (some (s.take (s.length - p.1.length))))

/-- Structural size of a pattern, used to bound the backtracking depth. -/
def reSize : Rx → Nat
  | .eps => 1
  | .cls _ => 1
  | .cat a b => reSize a + reSize b + 1
  | .alt a b => reSize a + reSize b + 1
  | .opt _ r => reSize r + 1
  | .star _ r => reSize r + 1
  | .grp _ r => reSize r + 1

/-- Fuel strictly exceeding any backtracking depth of `r` on `s` (every
recursive call of `matchList` decreases (input length, pattern size)
lexicographically, and both stay within their initial bounds). -/
def bigFuel (r : Rx) (s : List Char) : Nat :=
  (s.length + 1) * (reSize r + 1) + 1

/-- Worker for `finditer`: try the pattern at each position from left to
right; after a match resume at its end (after an empty match, advance one
character, as `re.finditer` does).  The fuel `length + 1` is exact since every
recursive call scans a strictly shorter suffix. -/
def scanAux : Nat → Rx → Nat → List Char → List Caps
  | 0, _, _, _ => []
  | Nat.succ n, pat, k, s =>
    match matchList (bigFuel pat s) pat s (List.replicate k none) with
    | [] =>
      match s with
      | [] => []
      | _ :: t => scanAux n pat k t
    | (rest, caps) :: _ =>
      caps :: (if rest.length < s.length then scanAux n pat k rest
               else
                 match s with
                 | [] => []
                 | _ :: t => scanAux n pat k t)

/-- The capture groups of the successive matches of
`re.finditer(pat, s, re.MULTILINE | re.DOTALL)` (the patterns use no anchors,
so `re.MULTILINE` is inert).  `k` is the number of capture groups. -/
def finditer (pat : Rx) (k : Nat) (s : List Char) : List Caps :=
  scanAux (s.length + 1) pat k s

/-! ### The script's patterns -/

/-- Single literal character. -/
def chrR (c : Char) : Rx := .cls (.chr c)

/-- Literal string. -/
def strR (s : String) : Rx := s.toList.foldr (fun c r => .cat (chrR c) r) .eps

/-- Greedy `X+` as `X X*`. -/
def plusR (r : Rx) : Rx := .cat r (.star false r)

/-- `\s+`. -/
def wsP : Rx := plusR (.cls .ws)

/-- `\s*`. -/
def wsS : Rx := .star false (.cls .ws)

/-- `[a-zA-Z_][a-zA-Z0-9_]*`. -/
def identR : Rx := .cat (.cls .alphaUnd) (.star false (.cls .alnumUnd))

/-- `[a-zA-Z0-9_]+`. -/
def alnumP : Rx := plusR (.cls .alnumUnd)

/-- `.*?` (with `re.DOTALL`). -/
def lazyAny : Rx := .star true (.cls .any)

/-- `[^)]*`. -/
def argsNP : Rx := .star false (.cls .notRparen)

/-- Concatenation of a sequence of patterns. -/
def seqR (l : List Rx) : Rx := l.foldr .cat .eps

/-- `def\s+([a-zA-Z_][a-zA-Z0-9_]*)\s*\((.*?)\)(?:\s*->\s*(.*?))?:` -/
def pythonPat : Rx := seqR [strR "def", wsP, .grp 0 identR, wsS, chrR '(',
  .grp 1 lazyAny, chrR ')',
  .opt false (seqR [wsS, strR "->", wsS, .grp 2 lazyAny]), chrR ':']

/-- First alternative of the javascript pattern:
`function\s+([a-zA-Z_][a-zA-Z0-9_]*)\s*\((.*?)\)` -/
def jsB1 : Rx := seqR [strR "function", wsP, .grp 0 identR, wsS, chrR '(',
  .grp 1 lazyAny, chrR ')']

/-- Second alternative:
`const\s+([a-zA-Z_][a-zA-Z0-9_]*)\s*=\s*(?:async\s*)?\((.*?)\)\s*=>` -/
def jsB2 : Rx := seqR [strR "const", wsP, .grp 2 identR, wsS, chrR '=', wsS,
  .opt false (seqR [strR "async", wsS]), chrR '(', .grp 3 lazyAny, chrR ')',
  wsS, strR "=>"]

/-- Third alternative: `([a-zA-Z_][a-zA-Z0-9_]*)\s*\((.*?)\)\s*\{` -/
def jsB3 : Rx := seqR [.grp 4 identR, wsS, chrR '(', .grp 5 lazyAny, chrR ')',
  wsS, chrR '\x7b']

/-- The javascript (and typescript) pattern: the three alternatives. -/
def jsPat : Rx := .alt jsB1 (.alt jsB2 jsB3)

/-- `fn\s+([a-zA-Z_][a-zA-Z0-9_]*)\s*(?:<.*?>)?\s*\((.*?)\)(?:\s*->\s*(.*?))?\s*\{` -/
def rustPat : Rx := seqR [strR "fn", wsP, .grp 0 identR, wsS,
  .opt false (seqR [chrR '<', lazyAny, chrR '>']), wsS, chrR '(',
  .grp 1 lazyAny, chrR ')',
  .opt false (seqR [wsS, strR "->", wsS, .grp 2 lazyAny]), wsS, chrR '\x7b']

/-- `func\s+([a-zA-Z_][a-zA-Z0-9_]*)\s*\((.*?)\)\s*(.*?)?\{` -/
def goPat : Rx := seqR [strR "func", wsP, .grp 0 identR, wsS, chrR '(',
  .grp 1 lazyAny, chrR ')', wsS, .opt false (.grp 2 lazyAny), chrR '\x7b']

/-- `(?:[a-zA-Z0-9_<>]+)\s+([a-zA-Z_][a-zA-Z0-9_]*)\s*\((.*?)\)\s*(?:async)?\s*\{` -/
def dartPat : Rx := seqR [plusR (.cls .alnumUndLtGt), wsP, .grp 0 identR, wsS,
  chrR '(', .grp 1 lazyAny, chrR ')', wsS, .opt false (strR "async"), wsS,
  chrR '\x7b']

/-- `(?:public|protected|private|static|\s)` -/
def javaMod : Rx := .alt (strR "public") (.alt (strR "protected")
  (.alt (strR "private") (.alt (strR "static") (.cls .ws))))

/-- `(?:public|protected|private|static|\s) +[\w\<\>\[\]]+\s+([a-zA-Z0-9_]+)\s*\(([^)]*)\)\s*(?:throws\s.*?)?\{` -/
def javaPat : Rx := seqR [javaMod, plusR (.cls (.chr ' ')), plusR (.cls .wordBr),
  wsP, .grp 0 alnumP, wsS, chrR '(', .grp 1 argsNP, chrR ')', wsS,
  .opt false (seqR [strR "throws", .cls .ws, lazyAny]), chrR '\x7b']

/-- `fun\s+([a-zA-Z0-9_]+)\s*\(([^)]*)\)(?:\s*:\s*[a-zA-Z0-9_<>]+)?\s*\{` -/
def kotlinPat : Rx := seqR [strR "fun", wsP, .grp 0 alnumP, wsS, chrR '(',
  .grp 1 argsNP, chrR ')',
  .opt false (seqR [wsS, chrR ':', wsS, plusR (.cls .alnumUndLtGt)]), wsS,
  chrR '\x7b']

/-- `func\s+([a-zA-Z0-9_]+)\s*\(([^)]*)\)(?:\s*->\s*[a-zA-Z0-9_<>]+)?\s*\{` -/
def swiftPat : Rx := seqR [strR "func", wsP, .grp 0 alnumP, wsS, chrR '(',
  .grp 1 argsNP, chrR ')',
  .opt false (seqR [wsS, strR "->", wsS, plusR (.cls .alnumUndLtGt)]), wsS,
  chrR '\x7b']

/-- `([a-zA-Z0-9_]+)\s+([a-zA-Z0-9_]+)\s*\(([^)]*)\)\s*\{` -/
def cPat : Rx := seqR [.grp 0 alnumP, wsP, .grp 1 alnumP, wsS, chrR '(',
  .grp 2 argsNP, chrR ')', wsS, chrR '\x7b']

/-- `([a-zA-Z0-9_]+)\s+([a-zA-Z0-9_]+)\s*\(([^)]*)\)\s*(?:const)?\s*\{` -/
def cppPat : Rx := seqR [.grp 0 alnumP, wsP, .grp 1 alnumP, wsS, chrR '(',
  .grp 2 argsNP, chrR ')', wsS, .opt false (strR "const"), wsS, chrR '\x7b']

/-- `function\s+([a-zA-Z0-9_]+)\s*\(([^)]*)\)\s*(?::\s*[a-zA-Z0-9_<>]+)?\s*\{` -/
def phpPat : Rx := seqR [strR "function", wsP, .grp 0 alnumP, wsS, chrR '(',
  .grp 1 argsNP, chrR ')', wsS,
  .opt false (seqR [chrR ':', wsS, plusR (.cls .alnumUndLtGt)]), wsS,
  chrR '\x7b']

/-- The `PATTERNS` dictionary: language to (pattern, number of groups). -/
def PATTERNS (lang : String) : Option (Rx × Nat) :=
  if lang = "python" then some (pythonPat, 3)
  else if lang = "javascript" then some (jsPat, 6)
  else if lang = "typescript" then some (jsPat, 6)
  else if lang = "rust" then some (rustPat, 3)
  else if lang = "go" then some (goPat, 3)
  else if lang = "dart" then some (dartPat, 2)
  else if lang = "java" then some (javaPat, 2)
  else if lang = "kotlin" then some (kotlinPat, 2)
  else if lang = "swift" then some (swiftPat, 2)
  else if lang = "c" then some (cPat, 3)
  else if lang = "cpp" then some (cppPat, 3)
  else if lang = "php" then some (phpPat, 2)
  else none

/-- `extract_functions(content, lang)`: look the pattern up (an unknown
language yields `[]`), iterate over the matches and keep the signatures of
matches with at least one non-empty group.  The function is total: the
happy path of the script's `try` block. -/
def extract_functions (content : List Char) (lang : String) : List Sig :=
  match PATTERNS lang with
  | none => []
  | some (pat, k) => (finditer pat k content).filterMap (processMatch lang)

/-- The extraction loop of `extract_functions` applied to an explicit list of
match results (`extract_functions content lang` equals
`extractFromMatches lang (finditer pat k content)` when `PATTERNS lang`
is `some (pat, k)`). -/
def extractFromMatches (lang : String) (ms : List Caps) : List Sig :=
  ms.filterMap (processMatch lang)

/-- The `for match in matches:` loop with an exception injected: the loop
runs inside `try: ... except Exception: pass`, so when the exception strikes
while iteration number `failAt` is being handled, the loop aborts and the
`functions` accumulated so far are returned (the `return functions` after the
handler).  `acc` is the `functions` list. -/
def extractLoop (lang : String) : Nat → List Sig → List Caps → List Sig
  | _, acc, [] => acc
  | 0, acc, _ :: _ => acc
  | Nat.succ n, acc, caps :: rest =>
    match processMatch lang caps with
    | some sig => extractLoop lang n (acc ++ [sig]) rest
    | none => extractLoop lang n acc rest

/-- `extract_functions` when a matching failure (an exception raised during
pattern matching) occurs while the `failAt`-th match is handled;
`failAt ≥ ms.length` means no failure occurs. -/
def extractWithException (lang : String) (ms : List Caps) (failAt : Nat) : List Sig :=
  extractLoop lang failAt [] ms

/-! ### The per-file part of the traversal (`generate_tree`) -/

/-- The `IGNORE_EXTS` set of the script. -/
def IGNORE_EXTS : List String :=
  [".png", ".jpg", ".jpeg", ".gif", ".ico", ".svg", ".woff", ".woff2",
   ".ttf", ".eot", ".mp4", ".webm", ".mp3", ".wav", ".zip", ".tar", ".gz",
   ".pyc", ".exe", ".dll", ".so", ".dylib", ".lock", ".log", ".map",
   ".DS_Store", ".class", ".o", ".obj"]

/-- `MAX_FILE_SIZE_BYTES = 100 * 1024`. -/
def MAX_FILE_SIZE_BYTES : Nat := 100 * 1024

/-- The `LANGUAGE_MAP` dictionary, as `get_language` uses it. -/
def getLanguage (ext : String) : Option String :=
  if ext = ".py" then some "python"
  else if ext = ".js" then some "javascript"
  else if ext = ".jsx" then some "javascript"
  else if ext = ".mjs" then some "javascript"
  else if ext = ".ts" then some "typescript"
  else if ext = ".tsx" then some "typescript"
  else if ext = ".rs" then some "rust"
  else if ext = ".go" then some "go"
  else if ext = ".dart" then some "dart"
  else if ext = ".java" then some "java"
  else if ext = ".kt" then some "kotlin"
  else if ext = ".kts" then some "kotlin"
  else if ext = ".swift" then some "swift"
  else if ext = ".c" then some "c"
  else if ext = ".h" then some "c"
  else if ext = ".cpp" then some "cpp"
  else if ext = ".hpp" then some "cpp"
  else if ext = ".cc" then some "cpp"
  else if ext = ".php" then some "php"
  else none

/-- One file as the traversal sees it: its extension, the byte size
`os.path.getsize` reports, whether `getsize`/`open`/`read` succeed (the `try`
around them), and the decoded content. -/
structure FileInfo where
  ext : String
  size : Nat
  readable : Bool
  content : List Char

/-- What `generate_tree` does with one file: whether a tree line is emitted,
whether `extract_functions` is called, and the entry recorded in `files_data`
(`funcs[:25]`, only when `funcs` is non-empty). -/
structure FileResult where
  inTree : Bool
  attempted : Bool
  recorded : Option (List Sig)
deriving DecidableEq

/-- The per-file body of `generate_tree` (lines 124-147 of the script):
ignored extensions are skipped wholesale; otherwise the tree line is always
emitted, and `extract_functions` runs exactly when the size is strictly below
`MAX_FILE_SIZE_BYTES`, the file could be read, and the extension maps to a
language. -/
def processFile (f : FileInfo) : FileResult :=
  if f.ext ∈ IGNORE_EXTS then ⟨false, false, none⟩
  else
    let lang? := getLanguage f.ext
    let sizeOk := f.readable && decide (f.size < MAX_FILE_SIZE_BYTES)
    let funcs :=
      if sizeOk then
        match lang? with
        | some lang => extract_functions f.content lang
        | none => []
      else []
    ⟨true, sizeOk && lang?.isSome, if funcs = [] then none else some (funcs.take 25)⟩

/-! ### Syntactic checks on patterns

These decidable checks drive the universal theorems about the matcher: which
groups a pattern can touch, which groups every successful match must set, and
which groups always capture a non-empty whitespace-free word. -/

/-- `l` contains no whitespace character. -/
def noWS (l : List Char) : Prop := ∀ ch ∈ l, isWS ch = false

/-- Classes whose characters are never whitespace. -/
def ccWsFree : CC → Bool
  | .alnumUnd => true
  | .alphaUnd => true
  | .alnumUndLtGt => true
  | .wordBr => true
  | .chr c => !isWS c
  | _ => false

/-- Group `g` occurs somewhere in the pattern. -/
def hasGrp : Rx → Nat → Bool
  | .eps, _ => false
  | .cls _, _ => false
  | .cat a b, g => hasGrp a g || hasGrp b g
  | .alt a b, g => hasGrp a g || hasGrp b g
  | .opt _ r, g => hasGrp r g
  | .star _ r, g => hasGrp r g
  | .grp i r, g => (i == g) || hasGrp r g

/-- Group `g` participates in every successful match of the pattern. -/
def reqGrp : Rx → Nat → Bool
  | .cat a b, g => reqGrp a g || reqGrp b g
  | .alt a b, g => reqGrp a g && reqGrp b g
  | .grp i r, g => (i == g) || reqGrp r g
  | _, _ => false

/-- Body shape `class (class)*` over whitespace-free classes — the shape of
every name-capturing group of the script's patterns. -/
def goodBody : Rx → Bool
  | .cat (.cls a) (.star _ (.cls b)) => ccWsFree a && ccWsFree b
  | _ => false

/-- Every occurrence of group `g` in the pattern has a `goodBody` body. -/
def goodGrp : Rx → Nat → Bool
  | .eps, _ => true
  | .cls _, _ => true
  | .cat a b, g => goodGrp a g && goodGrp b g
  | .alt a b, g => goodGrp a g && goodGrp b g
  | .opt _ r, g => goodGrp r g
  | .star _ r, g => goodGrp r g
  | .grp i r, g => (if i == g then goodBody r else true) && goodGrp r g

/-! ## Theorems

### Whitespace collapsing -/

theorem splitAux_words {l : List Char} :
    ∀ {acc}, (∀ ch ∈ acc, isWS ch = false) →
      ∀ w ∈ splitAux l acc, w ≠ [] ∧ noWS w := by
  induction l with
  | nil =>
    intro acc hacc w hw
    by_cases h : acc = []
    · simp [splitAux, h] at hw
    · simp [splitAux, h] at hw
      subst hw
      refine ⟨by simpa using h, ?_⟩
      intro ch hch
      exact hacc ch (List.mem_reverse.mp hch)
  | cons c cs ih =>
    intro acc hacc w hw
    by_cases hc : isWS c
    · by_cases h : acc = []
      · simp [splitAux, hc, h] at hw
        exact ih (by simp) w hw
      · simp [splitAux, hc, h] at hw
        rcases hw with hw | hw
        · subst hw
          refine ⟨by simpa using h, ?_⟩
          intro ch hch
          exact hacc ch (List.mem_reverse.mp hch)
        · exact ih (by simp) w hw
    · simp only [splitAux, hc, if_false] at hw
      refine ih ?_ w hw
      intro ch hch
      rcases List.mem_cons.mp hch with rfl | hch
      · simpa using hc
      · exact hacc ch hch

theorem splitAux_append_word {w : List Char} (hw : noWS w) :
    ∀ l acc, splitAux (w ++ l) acc = splitAux l (w.reverse ++ acc) := by
  induction w with
  | nil => intro l acc; simp
  | cons c w' ih =>
    intro l acc
    have hc : isWS c = false := hw c (by simp)
    have hw' : noWS w' := fun ch hch => hw ch (by simp [hch])
    simp only [List.cons_append, splitAux, hc, if_false, Bool.false_eq_true,
      List.append_eq]
    rw [ih hw' l (c :: acc)]
    simp [List.append_assoc]

theorem pySplit_joinSp :
    ∀ {ws : List (List Char)}, (∀ w ∈ ws, w ≠ [] ∧ noWS w) →
      pySplit (joinSp ws) = ws := by
  intro ws
  induction ws with
  | nil => intro _; simp [pySplit, joinSp, splitAux]
  | cons w t ih =>
    intro h
    obtain ⟨hne, hnw⟩ := h w (by simp)
    have hrev : w.reverse ≠ [] := by simpa using hne
    cases t with
    | nil =>
      show splitAux (joinSp [w]) [] = [w]
      have : joinSp [w] = w ++ [] := by simp [joinSp]
      rw [this, splitAux_append_word hnw]
      simp [splitAux, hrev]
    | cons w' t' =>
      have hjoin : joinSp (w :: w' :: t') = w ++ ' ' :: joinSp (w' :: t') := rfl
      show splitAux (joinSp (w :: w' :: t')) [] = w :: w' :: t'
      rw [hjoin, splitAux_append_word hnw]
      have hsp : isWS ' ' = true := by decide
      simp only [List.append_nil, splitAux, hsp, if_true, hrev, if_false,
        List.reverse_reverse]
      have := ih (fun v hv => h v (by simp [hv]))
      simp only [pySplit] at this
      simp [this]

theorem pySplit_words {l : List Char} : ∀ w ∈ pySplit l, w ≠ [] ∧ noWS w :=
  splitAux_words (by simp)

/-- C8: the post-processing `" ".join(s.split())` applied to `args` and
`ret` is idempotent: applying it twice equals applying it once. -/
theorem collapse_idempotent (l : List Char) :
    pyCollapse (pyCollapse l) = pyCollapse l := by
  show joinSp (pySplit (joinSp (pySplit l))) = joinSp (pySplit l)
  rw [pySplit_joinSp pySplit_words]

theorem pyStrip_of_noWS {l : List Char} (h : noWS l) : pyStrip l = l := by
  have drop : ∀ m : List Char, noWS m → m.dropWhile isWS = m := by
    intro m hm
    cases m with
    | nil => rfl
    | cons c t => simp [List.dropWhile, hm c (by simp)]
  unfold pyStrip
  rw [drop l h, drop l.reverse (fun ch hch => h ch (List.mem_reverse.mp hch)),
    List.reverse_reverse]

/-! ### The failure path of the extraction loop -/

theorem extractLoop_eq (lang : String) :
    ∀ (ms : List Caps) (k : Nat) (acc : List Sig),
      extractLoop lang k acc ms = acc ++ extractFromMatches lang (ms.take k) := by
  intro ms
  induction ms with
  | nil => intro k acc; cases k <;> simp [extractLoop, extractFromMatches]
  | cons caps rest ih =>
    intro k acc
    cases k with
    | zero => simp [extractLoop, extractFromMatches]
    | succ n =>
      cases hpm : processMatch lang caps with
      | some sig =>
        simp [extractLoop, hpm, ih, extractFromMatches, List.filterMap_cons]
      | none =>
        simp [extractLoop, hpm, ih, extractFromMatches, List.filterMap_cons]

/-- C1 (amended): when a matching failure strikes while match number `failAt`
is handled, the exception is caught and does not propagate (the function is
total), and the extractor returns exactly the signatures accumulated from the
matches processed before the failure — a result that is a prefix of the
full extraction, empty only when the failure precedes the first emitted
signature. -/
theorem extract_failure_keeps_partial (lang : String) (ms : List Caps) (failAt : Nat) :
    extractWithException lang ms failAt = extractFromMatches lang (ms.take failAt) ∧
    ∃ rest, extractFromMatches lang ms = extractWithException lang ms failAt ++ rest := by
  have h : extractWithException lang ms failAt =
      extractFromMatches lang (ms.take failAt) := by
    simpa using extractLoop_eq lang ms failAt []
  refine ⟨h, extractFromMatches lang (ms.drop failAt), ?_⟩
  rw [h]
  unfold extractFromMatches
  rw [← List.filterMap_append, List.take_append_drop]

/-- C1 (counterexample): a failure striking at the second iteration, after one
signature was already accumulated from a C-style match, yields that signature
rather than the empty sequence the claim demands. -/
theorem extract_failure_nonempty_example :
    extractWithException "c"
      [[some "int".toList, some "add".toList, some "x".toList],
       [some "int".toList, some "add".toList, some "x".toList]] 1 ≠ [] := by
  decide

/-! ### Concrete extractions -/

/-- C3: extracting from `int add(int a, int b) {` with the C rule yields
exactly the signature (name `add`, arguments `int a, int b`, return `int`). -/
theorem c_add_example :
    extract_functions "int add(int a, int b) \x7b".toList "c" =
      [⟨"add".toList, "int a, int b".toList, "int".toList⟩] := by
  decide

/-- C4: extracting from `const sum = (a, b) => {` with the javascript rule
yields exactly the signature (name `sum`, arguments `a, b`, empty return). -/
theorem js_arrow_sum_example :
    extract_functions "const sum = (a, b) => \x7b".toList "javascript" =
      [⟨"sum".toList, "a, b".toList, []⟩] := by
  decide

/-- C2 (counterexample): on `int add(int  a, int b) {` the C pattern captures
group 2 as `int  a, int b` (double space), but the produced arguments are the
whitespace-collapsed `int a, int b`, not the merely trimmed captured group. -/
theorem c_args_collapsed_example :
    finditer cPat 3 "int add(int  a, int b) \x7b".toList =
      [[some "int".toList, some "add".toList, some "int  a, int b".toList]] ∧
    extract_functions "int add(int  a, int b) \x7b".toList "c" =
      [⟨"add".toList, "int a, int b".toList, "int".toList⟩] ∧
    "int a, int b".toList ≠ pyStrip "int  a, int b".toList := by
  exact ⟨by decide, by decide, by decide⟩

/-- C2 (amended): for the C and C++ families, a match whose non-empty captured
groups number at least 3 maps group 0 to returnType, group 1 to name and
group 2 to arguments; the name is trimmed, and arguments and returnType are
trimmed with internal whitespace runs collapsed to single spaces. -/
theorem ccpp_group_mapping (lang : String) (caps : Caps)
    (g0 g1 g2 : List Char) (gs : List (List Char))
    (hlang : lang = "c" ∨ lang = "cpp")
    (ht : truthyGroups caps = g0 :: g1 :: g2 :: gs) :
    processMatch lang caps =
      some ⟨pyStrip g1, pyCollapse (pyStrip g2), pyCollapse (pyStrip g0)⟩ := by
  unfold processMatch
  rw [ht]
  simp [hlang, List.getD]

/-- C2 (amended, witness). -/
theorem ccpp_group_mapping_example :
    processMatch "c"
        [some "long int".toList, some "f".toList, some " a,  b ".toList] =
      some ⟨pyStrip "f".toList, pyCollapse (pyStrip " a,  b ".toList),
        pyCollapse (pyStrip "long int".toList)⟩ :=
  ccpp_group_mapping "c" _ "long int".toList "f".toList " a,  b ".toList []
    (Or.inl rfl) (by decide)

/-- C10: for the C and C++ families, a match with exactly 2 non-empty captured
groups (such as `int add() {`, whose empty arguments group is dropped by the
non-empty filter) yields a signature whose name is captured group 0 — the
return-type token — with empty arguments and empty returnType. -/
theorem ccpp_two_groups (lang : String) (caps : Caps) (g0 g1 : List Char)
    (hlang : lang = "c" ∨ lang = "cpp")
    (ht : truthyGroups caps = [g0, g1]) :
    processMatch lang caps = some ⟨pyStrip g0, [], []⟩ := by
  unfold processMatch
  rw [ht]
  simp [hlang]
  rfl

/-- C10 (witness): the capture groups of the single match of `int add() {`. -/
theorem ccpp_two_groups_example :
    processMatch "c" [some "int".toList, some "add".toList, some []] =
      some ⟨pyStrip "int".toList, [], []⟩ :=
  ccpp_two_groups "c" _ "int".toList "add".toList (Or.inl rfl) (by decide)

/-- C9: an unknown language, or a content with zero matches for the language's
pattern, yields the empty sequence; `extract_functions` is total, so no error
is raised or signalled. -/
theorem no_match_empty (content : List Char) (lang : String) :
    (PATTERNS lang = none → extract_functions content lang = []) ∧
    (∀ pat k, PATTERNS lang = some (pat, k) → finditer pat k content = [] →
      extract_functions content lang = []) := by
  constructor
  · intro h
    unfold extract_functions
    rw [h]
  · intro pat k h hf
    unfold extract_functions
    rw [h]
    show (finditer pat k content).filterMap (processMatch lang) = []
    rw [hf]
    rfl

/-- C9 (witness): a language absent from `PATTERNS`, and an empty content with
the C pattern. -/
theorem no_match_empty_example :
    extract_functions "abc".toList "cobol" = [] ∧ extract_functions [] "c" = [] :=
  ⟨(no_match_empty "abc".toList "cobol").1 (by decide),
   (no_match_empty [] "c").2 cPat 3 (by decide) (by decide)⟩

/-! ### The per-file size gate -/

/-- C6 (counterexample): a readable `.py` file of exactly 102,400 bytes is
within the claim's ceiling (102,400 does not exceed 102,400), yet the script
skips extraction for it because its test is strict (`getsize < 102400`); the
file still appears in the tree.  A small file with an unmapped extension is
not extracted either, against the claim's "exactly when". -/
theorem size_gate_boundary_example :
    processFile ⟨".py", 102400, true, []⟩ = ⟨true, false, none⟩ ∧
    MAX_FILE_SIZE_BYTES = 102400 ∧
    processFile ⟨".xyz", 10, true, []⟩ = ⟨true, false, none⟩ := by
  exact ⟨by decide, by decide, by decide⟩

/-- C6 (amended): for a traversed file whose extension is not ignored,
signature extraction is attempted exactly when the file is readable, its byte
size is strictly less than 102,400, and its extension maps to a supported
language; the file appears in the tree listing regardless (in particular a
file at or beyond the size ceiling is skipped for extraction but listed). -/
theorem extraction_gate (f : FileInfo) (h : f.ext ∉ IGNORE_EXTS) :
    ((processFile f).attempted = true ↔
      f.readable = true ∧ f.size < MAX_FILE_SIZE_BYTES ∧
        (getLanguage f.ext).isSome = true) ∧
    (processFile f).inTree = true := by
  unfold processFile
  rw [if_neg h]
  simp [Bool.and_eq_true, decide_eq_true_eq, and_assoc]

/-- C6 (amended, witness). -/
theorem extraction_gate_example :
    ((processFile ⟨".py", 10, true, []⟩).attempted = true ↔
      true = true ∧ 10 < MAX_FILE_SIZE_BYTES ∧
        (getLanguage ".py").isSome = true) ∧
    (processFile ⟨".py", 10, true, []⟩).inTree = true :=
  extraction_gate ⟨".py", 10, true, []⟩ (by decide)

/-! ### Generic properties of the matcher

All lemmas are proved by induction on the fuel, so they hold for every fuel
value; the concrete fuel `bigFuel` is irrelevant to them. -/

theorem matchList_caps_length :
    ∀ (n : Nat) (r : Rx) (s : List Char) (c : Caps) (rest : List Char) (caps : Caps),
      (rest, caps) ∈ matchList n r s c → caps.length = c.length := by
  intro n
  induction n with
  | zero => intro r s c rest caps h; simp [matchList] at h
  | succ n ih =>
    intro r s c rest caps h
    cases r with
    | eps =>
      simp [matchList] at h
      rw [h.2]
    | cls cc =>
      cases s with
      | nil => simp [matchList] at h
      | cons ch t =>
        by_cases hcc : ccFun cc ch = true <;> simp [matchList, hcc] at h
        rw [h.2]
    | cat a b =>
      simp [matchList] at h
      obtain ⟨s1, c1, h1, h2⟩ := h
      rw [ih b s1 c1 rest caps h2, ih a s c s1 c1 h1]
    | alt a b =>
      simp [matchList] at h
      rcases h with h | h
      · exact ih a s c rest caps h
      · exact ih b s c rest caps h
    | opt lz r' =>
      cases lz <;> simp [matchList] at h <;>
        rcases h with h | h
      · exact ih r' s c rest caps h
      · rw [h.2]
      · rw [h.2]
      · exact ih r' s c rest caps h
    | star lz r' =>
      have deeper : ∀ s1 c1, (s1, c1) ∈ matchList n r' s c →
          (rest, caps) ∈ (if s1.length < s.length
            then matchList n (.star lz r') s1 c1 else []) →
          caps.length = c.length := by
        intro s1 c1 h1 h2
        by_cases hlt : s1.length < s.length
        · rw [if_pos hlt] at h2
          rw [ih (.star lz r') s1 c1 rest caps h2, ih r' s c s1 c1 h1]
        · rw [if_neg hlt] at h2; simp at h2
      cases lz <;> simp [matchList] at h
      · rcases h with ⟨s1, c1, h1, h2⟩ | h
        · exact deeper s1 c1 h1 (by simpa using h2)
        · rw [h.2]
      · rcases h with h | ⟨s1, c1, h1, h2⟩
        · rw [h.2]
        · exact deeper s1 c1 h1 (by simpa using h2)
    | grp i r' =>
      simp [matchList] at h
      obtain ⟨s1, c1, h1, hrest, hcaps⟩ := h
      rw [← hcaps, List.length_set]
      exact ih r' s c s1 c1 h1

theorem matchList_suffix :
    ∀ (n : Nat) (r : Rx) (s : List Char) (c : Caps) (rest : List Char) (caps : Caps),
      (rest, caps) ∈ matchList n r s c → ∃ pre, s = pre ++ rest := by
  intro n
  induction n with
  | zero => intro r s c rest caps h; simp [matchList] at h
  | succ n ih =>
    intro r s c rest caps h
    cases r with
    | eps =>
      simp [matchList] at h
      exact ⟨[], by simp [h.1]⟩
    | cls cc =>
      cases s with
      | nil => simp [matchList] at h
      | cons ch t =>
        by_cases hcc : ccFun cc ch = true <;> simp [matchList, hcc] at h
        exact ⟨[ch], by simp [h.1]⟩
    | cat a b =>
      simp [matchList] at h
      obtain ⟨s1, c1, h1, h2⟩ := h
      obtain ⟨p1, hp1⟩ := ih a s c s1 c1 h1
      obtain ⟨p2, hp2⟩ := ih b s1 c1 rest caps h2
      exact ⟨p1 ++ p2, by rw [hp1, hp2, List.append_assoc]⟩
    | alt a b =>
      simp [matchList] at h
      rcases h with h | h
      · exact ih a s c rest caps h
      · exact ih b s c rest caps h
    | opt lz r' =>
      cases lz <;> simp [matchList] at h <;>
        rcases h with h | h
      · exact ih r' s c rest caps h
      · exact ⟨[], by simp [h.1]⟩
      · exact ⟨[], by simp [h.1]⟩
      · exact ih r' s c rest caps h
    | star lz r' =>
      have deeper : ∀ s1 c1, (s1, c1) ∈ matchList n r' s c →
          (rest, caps) ∈ (if s1.length < s.length
            then matchList n (.star lz r') s1 c1 else []) →
          ∃ pre, s = pre ++ rest := by
        intro s1 c1 h1 h2
        by_cases hlt : s1.length < s.length
        · rw [if_pos hlt] at h2
          obtain ⟨p1, hp1⟩ := ih r' s c s1 c1 h1
          obtain ⟨p2, hp2⟩ := ih (.star lz r') s1 c1 rest caps h2
          exact ⟨p1 ++ p2, by rw [hp1, hp2, List.append_assoc]⟩
        · rw [if_neg hlt] at h2; simp at h2
      cases lz <;> simp [matchList] at h
      · rcases h with ⟨s1, c1, h1, h2⟩ | h
        · exact deeper s1 c1 h1 (by simpa using h2)
        · exact ⟨[], by simp [h.1]⟩
      · rcases h with h | ⟨s1, c1, h1, h2⟩
        · exact ⟨[], by simp [h.1]⟩
        · exact deeper s1 c1 h1 (by simpa using h2)
    | grp i r' =>
      simp [matchList] at h
      obtain ⟨s1, c1, h1, hrest, hcaps⟩ := h
      obtain ⟨p1, hp1⟩ := ih r' s c s1 c1 h1
      exact ⟨p1, by rw [hp1, hrest]⟩

theorem matchList_cls {n : Nat} {cc : CC} {s : List Char} {c : Caps}
    {rest : List Char} {caps : Caps}
    (h : (rest, caps) ∈ matchList n (.cls cc) s c) :
    caps = c ∧ ∃ ch, s = ch :: rest ∧ ccFun cc ch = true := by
  cases n with
  | zero => simp [matchList] at h
  | succ n =>
    cases s with
    | nil => simp [matchList] at h
    | cons ch t =>
      by_cases hcc : ccFun cc ch = true <;> simp [matchList, hcc] at h
      exact ⟨h.2, ch, by rw [h.1], hcc⟩

theorem matchList_star_cls :
    ∀ (n : Nat) (lz : Bool) (cc : CC) (s : List Char) (c : Caps)
      (rest : List Char) (caps : Caps),
      (rest, caps) ∈ matchList n (.star lz (.cls cc)) s c →
      caps = c ∧ ∃ pre, s = pre ++ rest ∧ ∀ ch ∈ pre, ccFun cc ch = true := by
  intro n
  induction n with
  | zero => intro lz cc s c rest caps h; simp [matchList] at h
  | succ n ih =>
    intro lz cc s c rest caps h
    have deeper : ∀ s1 c1, (s1, c1) ∈ matchList n (.cls cc) s c →
        (rest, caps) ∈ (if s1.length < s.length
          then matchList n (.star lz (.cls cc)) s1 c1 else []) →
        caps = c ∧ ∃ pre, s = pre ++ rest ∧ ∀ ch ∈ pre, ccFun cc ch = true := by
      intro s1 c1 h1 h2
      by_cases hlt : s1.length < s.length
      · rw [if_pos hlt] at h2
        obtain ⟨hc1, ch, hs, hch⟩ := matchList_cls h1
        obtain ⟨hcaps, pre, hpre, hall⟩ := ih lz cc s1 c1 rest caps h2
        subst hc1
        refine ⟨hcaps, ch :: pre, by simp [hs, hpre], ?_⟩
        intro x hx
        rcases List.mem_cons.mp hx with rfl | hx
        · exact hch
        · exact hall x hx
      · rw [if_neg hlt] at h2; simp at h2
    cases lz <;> simp [matchList] at h
    · rcases h with ⟨s1, c1, h1, h2⟩ | h
      · exact deeper s1 c1 h1 (by simpa using h2)
      · exact ⟨h.2, [], by simp [h.1], by simp⟩
    · rcases h with h | ⟨s1, c1, h1, h2⟩
      · exact ⟨h.2, [], by simp [h.1], by simp⟩
      · exact deeper s1 c1 h1 (by simpa using h2)

theorem ccFun_wsFree (cc : CC) (h : ccWsFree cc = true) (ch : Char)
    (hc : ccFun cc ch = true) : isWS ch = false := by
  cases hW : isWS ch
  · rfl
  exfalso
  have hW' := hW
  simp only [isWS, Bool.or_eq_true, beq_iff_eq] at hW'
  cases cc with
  | chr d =>
    have hd : ch = d := by simpa [ccFun] using hc
    subst hd
    simp [ccWsFree, hW] at h
  | any => simp [ccWsFree] at h
  | ws => simp [ccWsFree] at h
  | notRparen => simp [ccWsFree] at h
  | alnumUnd =>
    rcases hW' with ((((rfl | rfl) | rfl) | rfl) | rfl) | rfl <;> revert hc <;> decide
  | alphaUnd =>
    rcases hW' with ((((rfl | rfl) | rfl) | rfl) | rfl) | rfl <;> revert hc <;> decide
  | alnumUndLtGt =>
    rcases hW' with ((((rfl | rfl) | rfl) | rfl) | rfl) | rfl <;> revert hc <;> decide
  | wordBr =>
    rcases hW' with ((((rfl | rfl) | rfl) | rfl) | rfl) | rfl <;> revert hc <;> decide

theorem matchList_hasGrp_false :
    ∀ (n : Nat) (r : Rx) (g : Nat) (s : List Char) (cIn : Caps)
      (rest : List Char) (caps : Caps),
      hasGrp r g = false → (rest, caps) ∈ matchList n r s cIn →
      caps[g]? = cIn[g]? := by
  intro n
  induction n with
  | zero => intro r g s cIn rest caps _ h; simp [matchList] at h
  | succ n ih =>
    intro r g s cIn rest caps hg h
    cases r with
    | eps =>
      simp [matchList] at h
      rw [h.2]
    | cls cc =>
      obtain ⟨hc, -⟩ := matchList_cls h
      rw [hc]
    | cat a b =>
      simp only [hasGrp, Bool.or_eq_false_iff] at hg
      simp [matchList] at h
      obtain ⟨s1, c1, h1, h2⟩ := h
      rw [ih b g s1 c1 rest caps hg.2 h2, ih a g s cIn s1 c1 hg.1 h1]
    | alt a b =>
      simp only [hasGrp, Bool.or_eq_false_iff] at hg
      simp [matchList] at h
      rcases h with h | h
      · exact ih a g s cIn rest caps hg.1 h
      · exact ih b g s cIn rest caps hg.2 h
    | opt lz r' =>
      simp only [hasGrp] at hg
      cases lz <;> simp [matchList] at h <;>
        rcases h with h | h
      · exact ih r' g s cIn rest caps hg h
      · rw [h.2]
      · rw [h.2]
      · exact ih r' g s cIn rest caps hg h
    | star lz r' =>
      simp only [hasGrp] at hg
      have deeper : ∀ s1 c1, (s1, c1) ∈ matchList n r' s cIn →
          (rest, caps) ∈ (if s1.length < s.length
            then matchList n (.star lz r') s1 c1 else []) →
          caps[g]? = cIn[g]? := by
        intro s1 c1 h1 h2
        by_cases hlt : s1.length < s.length
        · rw [if_pos hlt] at h2
          rw [ih (.star lz r') g s1 c1 rest caps (by simpa [hasGrp] using hg) h2,
            ih r' g s cIn s1 c1 hg h1]
        · rw [if_neg hlt] at h2; simp at h2
      cases lz <;> simp [matchList] at h
      · rcases h with ⟨s1, c1, h1, h2⟩ | h
        · exact deeper s1 c1 h1 (by simpa using h2)
        · rw [h.2]
      · rcases h with h | ⟨s1, c1, h1, h2⟩
        · rw [h.2]
        · exact deeper s1 c1 h1 (by simpa using h2)
    | grp i r' =>
      simp only [hasGrp, Bool.or_eq_false_iff, beq_eq_false_iff_ne] at hg
      simp [matchList] at h
      obtain ⟨s1, c1, h1, hrest, hcaps⟩ := h
      rw [← hcaps, List.getElem?_set_ne hg.1, ih r' g s cIn s1 c1 hg.2 h1]

theorem matchList_mono :
    ∀ (n : Nat) (r : Rx) (s : List Char) (cIn : Caps)
      (rest : List Char) (caps : Caps),
      (rest, caps) ∈ matchList n r s cIn →
      ∀ (g : Nat), caps[g]? = cIn[g]? ∨ ∃ v, caps[g]? = some (some v) := by
  intro n
  induction n with
  | zero => intro r s cIn rest caps h; simp [matchList] at h
  | succ n ih =>
    intro r s cIn rest caps h g
    cases r with
    | eps =>
      simp [matchList] at h
      rw [h.2]; left; rfl
    | cls cc =>
      obtain ⟨hc, -⟩ := matchList_cls h
      rw [hc]; left; rfl
    | cat a b =>
      simp [matchList] at h
      obtain ⟨s1, c1, h1, h2⟩ := h
      rcases ih b s1 c1 rest caps h2 g with h2' | h2'
      · rw [h2']; exact ih a s cIn s1 c1 h1 g
      · right; exact h2'
    | alt a b =>
      simp [matchList] at h
      rcases h with h | h
      · exact ih a s cIn rest caps h g
      · exact ih b s cIn rest caps h g
    | opt lz r' =>
      cases lz <;> simp [matchList] at h <;>
        rcases h with h | h
      · exact ih r' s cIn rest caps h g
      · rw [h.2]; left; rfl
      · rw [h.2]; left; rfl
      · exact ih r' s cIn rest caps h g
    | star lz r' =>
      have deeper : ∀ s1 c1, (s1, c1) ∈ matchList n r' s cIn →
          (rest, caps) ∈ (if s1.length < s.length
            then matchList n (.star lz r') s1 c1 else []) →
          caps[g]? = cIn[g]? ∨ ∃ v, caps[g]? = some (some v) := by
        intro s1 c1 h1 h2
        by_cases hlt : s1.length < s.length
        · rw [if_pos hlt] at h2
          rcases ih (.star lz r') s1 c1 rest caps h2 g with h2' | h2'
          · rw [h2']; exact ih r' s cIn s1 c1 h1 g
          · right; exact h2'
        · rw [if_neg hlt] at h2; simp at h2
      cases lz <;> simp [matchList] at h
      · rcases h with ⟨s1, c1, h1, h2⟩ | h
        · exact deeper s1 c1 h1 (by simpa using h2)
        · rw [h.2]; left; rfl
      · rcases h with h | ⟨s1, c1, h1, h2⟩
        · rw [h.2]; left; rfl
        · exact deeper s1 c1 h1 (by simpa using h2)
    | grp i r' =>
      simp [matchList] at h
      obtain ⟨s1, c1, h1, hrest, hcaps⟩ := h
      by_cases hig : i = g
      · subst hig
        by_cases hlen : i < c1.length
        · right
          exact ⟨_, by rw [← hcaps, List.getElem?_set_eq_of_lt _ hlen]⟩
        · rw [← hcaps, List.set_eq_of_length_le (Nat.le_of_not_lt hlen)]
          exact ih r' s cIn s1 c1 h1 i
      · rw [← hcaps, List.getElem?_set_ne hig]
        exact ih r' s cIn s1 c1 h1 g

theorem matchList_req :
    ∀ (n : Nat) (r : Rx) (g : Nat) (s : List Char) (cIn : Caps)
      (rest : List Char) (caps : Caps),
      reqGrp r g = true → g < cIn.length → (rest, caps) ∈ matchList n r s cIn →
      ∃ v, caps[g]? = some (some v) := by
  intro n
  induction n with
  | zero => intro r g s cIn rest caps _ _ h; simp [matchList] at h
  | succ n ih =>
    intro r g s cIn rest caps hr hlen h
    cases r with
    | eps => simp [reqGrp] at hr
    | cls cc => simp [reqGrp] at hr
    | opt lz r' => simp [reqGrp] at hr
    | star lz r' => simp [reqGrp] at hr
    | cat a b =>
      simp [matchList] at h
      obtain ⟨s1, c1, h1, h2⟩ := h
      have hlen1 : g < c1.length := by
        rw [matchList_caps_length (n := n) a s cIn s1 c1 h1]; exact hlen
      simp only [reqGrp, Bool.or_eq_true] at hr
      rcases hr with hr | hr
      · obtain ⟨v, hv⟩ := ih a g s cIn s1 c1 hr hlen h1
        rcases matchList_mono n b s1 c1 rest caps h2 g with h2' | h2'
        · exact ⟨v, by rw [h2', hv]⟩
        · exact h2'
      · exact ih b g s1 c1 rest caps hr hlen1 h2
    | alt a b =>
      simp only [reqGrp, Bool.and_eq_true] at hr
      simp [matchList] at h
      rcases h with h | h
      · exact ih a g s cIn rest caps hr.1 hlen h
      · exact ih b g s cIn rest caps hr.2 hlen h
    | grp i r' =>
      simp [matchList] at h
      obtain ⟨s1, c1, h1, hrest, hcaps⟩ := h
      have hlen1 : g < c1.length := by
        rw [matchList_caps_length (n := n) r' s cIn s1 c1 h1]; exact hlen
      by_cases hig : i = g
      · subst hig
        exact ⟨_, by rw [← hcaps, List.getElem?_set_eq_of_lt _ hlen1]⟩
      · have hr' : reqGrp r' g = true := by
          simp only [reqGrp, Bool.or_eq_true, beq_iff_eq] at hr
          rcases hr with hr | hr
          · exact absurd hr hig
          · exact hr
        obtain ⟨v, hv⟩ := ih r' g s cIn s1 c1 hr' hlen h1
        exact ⟨v, by rw [← hcaps, List.getElem?_set_ne hig, hv]⟩

theorem goodBody_shape {r : Rx} (h : goodBody r = true) :
    ∃ ca lz2 cb, r = .cat (.cls ca) (.star lz2 (.cls cb)) ∧
      ccWsFree ca = true ∧ ccWsFree cb = true := by
  cases r with
  | cat a b =>
    cases a with
    | cls ca =>
      cases b with
      | star lz2 b' =>
        cases b' with
        | cls cb =>
          simp only [goodBody, Bool.and_eq_true] at h
          exact ⟨ca, lz2, cb, rfl, h.1, h.2⟩
        | eps => simp [goodBody] at h
        | cat x y => simp [goodBody] at h
        | alt x y => simp [goodBody] at h
        | opt lz x => simp [goodBody] at h
        | star lz x => simp [goodBody] at h
        | grp i x => simp [goodBody] at h
      | eps => simp [goodBody] at h
      | cls x => simp [goodBody] at h
      | cat x y => simp [goodBody] at h
      | alt x y => simp [goodBody] at h
      | opt lz x => simp [goodBody] at h
      | grp i x => simp [goodBody] at h
    | eps => simp [goodBody] at h
    | cat x y => simp [goodBody] at h
    | alt x y => simp [goodBody] at h
    | opt lz x => simp [goodBody] at h
    | star lz x => simp [goodBody] at h
    | grp i x => simp [goodBody] at h
  | eps => simp [goodBody] at h
  | cls x => simp [goodBody] at h
  | alt x y => simp [goodBody] at h
  | opt lz x => simp [goodBody] at h
  | star lz x => simp [goodBody] at h
  | grp i x => simp [goodBody] at h

theorem matchList_word {n : Nat} {ca cb : CC} {lz2 : Bool} {s : List Char}
    {cIn : Caps} {s1 : List Char} {c1 : Caps}
    (h : (s1, c1) ∈ matchList n (.cat (.cls ca) (.star lz2 (.cls cb))) s cIn) :
    c1 = cIn ∧ ∃ ch pre, s = ch :: (pre ++ s1) ∧ ccFun ca ch = true ∧
      ∀ x ∈ pre, ccFun cb x = true := by
  cases n with
  | zero => simp [matchList] at h
  | succ n =>
    simp [matchList] at h
    obtain ⟨s2, c2, hA, hB⟩ := h
    obtain ⟨hc2, ch, hs, hch⟩ := matchList_cls hA
    obtain ⟨hc1, pre, hpre, hall⟩ := matchList_star_cls n lz2 cb s2 c2 s1 c1 hB
    subst hc2
    exact ⟨hc1, ch, pre, by rw [hs, hpre], hch, hall⟩

theorem matchList_goodGrp :
    ∀ (n : Nat) (r : Rx) (g : Nat) (s : List Char) (cIn : Caps)
      (rest : List Char) (caps : Caps),
      goodGrp r g = true → (rest, caps) ∈ matchList n r s cIn →
      caps[g]? = cIn[g]? ∨
        ∃ v, caps[g]? = some (some v) ∧ v ≠ [] ∧ noWS v := by
  intro n
  induction n with
  | zero => intro r g s cIn rest caps _ h; simp [matchList] at h
  | succ n ih =>
    intro r g s cIn rest caps hg h
    cases r with
    | eps =>
      simp [matchList] at h
      rw [h.2]; left; rfl
    | cls cc =>
      obtain ⟨hc, -⟩ := matchList_cls h
      rw [hc]; left; rfl
    | cat a b =>
      simp only [goodGrp, Bool.and_eq_true] at hg
      simp [matchList] at h
      obtain ⟨s1, c1, h1, h2⟩ := h
      rcases ih b g s1 c1 rest caps hg.2 h2 with h2' | h2'
      · rw [h2']; exact ih a g s cIn s1 c1 hg.1 h1
      · right; exact h2'
    | alt a b =>
      simp only [goodGrp, Bool.and_eq_true] at hg
      simp [matchList] at h
      rcases h with h | h
      · exact ih a g s cIn rest caps hg.1 h
      · exact ih b g s cIn rest caps hg.2 h
    | opt lz r' =>
      simp only [goodGrp] at hg
      cases lz <;> simp [matchList] at h <;>
        rcases h with h | h
      · exact ih r' g s cIn rest caps hg h
      · rw [h.2]; left; rfl
      · rw [h.2]; left; rfl
      · exact ih r' g s cIn rest caps hg h
    | star lz r' =>
      simp only [goodGrp] at hg
      have deeper : ∀ s1 c1, (s1, c1) ∈ matchList n r' s cIn →
          (rest, caps) ∈ (if s1.length < s.length
            then matchList n (.star lz r') s1 c1 else []) →
          caps[g]? = cIn[g]? ∨
            ∃ v, caps[g]? = some (some v) ∧ v ≠ [] ∧ noWS v := by
        intro s1 c1 h1 h2
        by_cases hlt : s1.length < s.length
        · rw [if_pos hlt] at h2
          rcases ih (.star lz r') g s1 c1 rest caps (by simpa [goodGrp] using hg) h2
            with h2' | h2'
          · rw [h2']; exact ih r' g s cIn s1 c1 hg h1
          · right; exact h2'
        · rw [if_neg hlt] at h2; simp at h2
      cases lz <;> simp [matchList] at h
      · rcases h with ⟨s1, c1, h1, h2⟩ | h
        · exact deeper s1 c1 h1 (by simpa using h2)
        · rw [h.2]; left; rfl
      · rcases h with h | ⟨s1, c1, h1, h2⟩
        · rw [h.2]; left; rfl
        · exact deeper s1 c1 h1 (by simpa using h2)
    | grp i r' =>
      simp only [goodGrp, Bool.and_eq_true] at hg
      simp [matchList] at h
      obtain ⟨s1, c1, h1, hrest, hcaps⟩ := h
      by_cases hig : i = g
      · subst hig
        have hbody : goodBody r' = true := by
          have := hg.1
          simpa using this
        obtain ⟨ca, lz2, cb, rfl, hwa, hwb⟩ := goodBody_shape hbody
        obtain ⟨hc1, ch, pre, hs, hch, hall⟩ := matchList_word h1
        by_cases hlen : i < c1.length
        · right
          refine ⟨s.take (s.length - s1.length),
            by rw [← hcaps, List.getElem?_set_eq_of_lt _ hlen], ?_, ?_⟩
          · rw [hs]
            simp only [List.length_cons, List.length_append, ne_eq,
              List.take_eq_nil_iff, List.cons_ne_nil, or_false]
            omega
          · rw [hs]
            have htake : (ch :: (pre ++ s1)).take ((ch :: (pre ++ s1)).length - s1.length) =
                ch :: pre := by
              simp only [List.length_cons, List.length_append]
              have : pre.length + s1.length + 1 - s1.length = pre.length + 1 := by omega
              rw [this]
              simp [List.take_left]
            rw [htake]
            intro x hx
            rcases List.mem_cons.mp hx with rfl | hx
            · exact ccFun_wsFree ca hwa x hch
            · exact ccFun_wsFree cb hwb x (hall x hx)
        · rw [← hcaps, List.set_eq_of_length_le (Nat.le_of_not_lt hlen), hc1]
          left; rfl
      · rw [← hcaps, List.getElem?_set_ne hig]
        exact ih r' g s cIn s1 c1 hg.2 h1

theorem scanAux_succ (n : Nat) (pat : Rx) (k : Nat) (s : List Char) :
    scanAux (n + 1) pat k s =
      match matchList (bigFuel pat s) pat s (List.replicate k none) with
      | [] =>
        (match s with
         | [] => []
         | _ :: t => scanAux n pat k t)
      | (rest, caps) :: _ =>
        caps :: (if rest.length < s.length then scanAux n pat k rest
                 else
                   match s with
                   | [] => []
                   | _ :: t => scanAux n pat k t) := rfl

theorem scanAux_mem :
    ∀ (n : Nat) (pat : Rx) (k : Nat) (s : List Char) (caps : Caps),
      caps ∈ scanAux n pat k s →
      ∃ s' rest,
        (rest, caps) ∈ matchList (bigFuel pat s') pat s' (List.replicate k none) := by
  intro n
  induction n with
  | zero => intro pat k s caps h; simp [scanAux] at h
  | succ n ih =>
    intro pat k s caps h
    rw [scanAux_succ] at h
    cases hm : matchList (bigFuel pat s) pat s (List.replicate k none) with
    | nil =>
      simp only [hm] at h
      cases s with
      | nil => simp at h
      | cons ch t => exact ih pat k t caps h
    | cons p tail =>
      obtain ⟨rest0, caps0⟩ := p
      simp only [hm] at h
      rcases List.mem_cons.mp h with rfl | h'
      · exact ⟨s, rest0, by rw [hm]; exact List.mem_cons_self _ _⟩
      · by_cases hlt : rest0.length < s.length
        · rw [if_pos hlt] at h'
          exact ih pat k rest0 caps h'
        · rw [if_neg hlt] at h'
          cases s with
          | nil => simp at h'
          | cons ch t => exact ih pat k t caps h'

theorem finditer_mem {pat : Rx} {k : Nat} {s : List Char} {caps : Caps}
    (h : caps ∈ finditer pat k s) :
    ∃ s' rest,
      (rest, caps) ∈ matchList (bigFuel pat s') pat s' (List.replicate k none) :=
  scanAux_mem (s.length + 1) pat k s caps h

theorem matchList_alt_inv {n : Nat} {a b : Rx} {s : List Char} {cIn : Caps}
    {res : List Char × Caps} (h : res ∈ matchList n (.alt a b) s cIn) :
    ∃ m, res ∈ matchList m a s cIn ∨ res ∈ matchList m b s cIn := by
  cases n with
  | zero => simp [matchList] at h
  | succ n =>
    obtain ⟨rest, caps⟩ := res
    simp [matchList] at h
    exact ⟨n, h⟩

/-- A group that is required and whose every occurrence captures a non-empty
whitespace-free word is, in every match started from blank captures, set to
such a word. -/
theorem matchList_name_group {n : Nat} (pat : Rx) (g k : Nat)
    (hreq : reqGrp pat g = true) (hgood : goodGrp pat g = true) (hk : g < k)
    {s rest : List Char} {caps : Caps}
    (h : (rest, caps) ∈ matchList n pat s (List.replicate k none)) :
    ∃ v, caps[g]? = some (some v) ∧ v ≠ [] ∧ noWS v := by
  obtain ⟨v, hv⟩ := matchList_req n pat g s _ rest caps hreq (by simpa using hk) h
  rcases matchList_goodGrp n pat g s _ rest caps hgood h with h1 | ⟨v', hv', hne, hws⟩
  · rw [hv] at h1
    rw [List.getElem?_replicate, if_pos hk] at h1
    simp at h1
  · rw [hv] at hv'
    have : v = v' := by
      have := Option.some.inj (Option.some.inj hv')
      exact this
    subst this
    exact ⟨v, hv, hne, hws⟩

theorem caps_shape1 {l : Caps} {x : Option (List Char)} (h : l[0]? = some x) :
    ∃ t, l = x :: t := by
  cases l with
  | nil => simp at h
  | cons a t =>
    simp at h
    rw [h]
    exact ⟨t, rfl⟩

theorem truthy_cons_some {v : List Char} {t : Caps} (hne : v ≠ []) :
    truthyGroups (some v :: t) = v :: truthyGroups t := by
  simp [truthyGroups, List.filterMap_cons, hne]

theorem truthy_cons_none {t : Caps} :
    truthyGroups (none :: t) = truthyGroups t := by
  simp [truthyGroups, List.filterMap_cons]

theorem truthy_cons_empty {t : Caps} :
    truthyGroups (some [] :: t) = truthyGroups t := by
  simp [truthyGroups, List.filterMap_cons]

/-- Languages other than `c`/`cpp` name the signature after the first
non-empty group (`groups[0].strip()`), in the `java` branch as well as in the
default branch. -/
theorem processMatch_head (lang : String) (hc : ¬(lang = "c" ∨ lang = "cpp"))
    (caps : Caps) (v : List Char) (gs : List (List Char))
    (ht : truthyGroups caps = v :: gs) :
    ∃ sig, processMatch lang caps = some sig ∧ sig.name = pyStrip v := by
  unfold processMatch
  rw [ht]
  by_cases hj : lang = "java" <;> simp [hc, hj]

/-- For `c`/`cpp` the name is the first group when fewer than 3 non-empty
groups are present, the second group otherwise. -/
theorem processMatch_ccpp_name (lang : String) (hc : lang = "c" ∨ lang = "cpp")
    (caps : Caps) (v0 v1 : List Char) (gs : List (List Char))
    (ht : truthyGroups caps = v0 :: v1 :: gs) :
    ∃ sig, processMatch lang caps = some sig ∧
      (sig.name = pyStrip v0 ∨ sig.name = pyStrip v1) := by
  unfold processMatch
  rw [ht]
  cases gs with
  | nil => simp [hc]
  | cons g2 gs' => simp [hc, List.getD]

theorem name_head_good (lang : String) (hc : ¬(lang = "c" ∨ lang = "cpp"))
    {caps : Caps} {v : List Char} {gs : List (List Char)}
    (ht : truthyGroups caps = v :: gs) (hne : v ≠ []) (hws : noWS v) :
    ∃ sig, processMatch lang caps = some sig ∧
      sig.name ≠ [] ∧ pyStrip sig.name = sig.name := by
  obtain ⟨sig, hsig, hname⟩ := processMatch_head lang hc caps v gs ht
  rw [pyStrip_of_noWS hws] at hname
  refine ⟨sig, hsig, ?_, ?_⟩
  · rw [hname]; exact hne
  · rw [hname, pyStrip_of_noWS hws]

/-- Every match any registered pattern produces yields a signature, and its
name survives trimming: it is a non-empty whitespace-free word. -/
theorem processMatch_lang_good (lang : String) (pat : Rx) (k : Nat)
    (hP : PATTERNS lang = some (pat, k)) (s : List Char) (caps : Caps)
    (hmem : caps ∈ finditer pat k s) :
    ∃ sig, processMatch lang caps = some sig ∧
      sig.name ≠ [] ∧ pyStrip sig.name = sig.name := by
  obtain ⟨s', rest, hm⟩ := finditer_mem hmem
  by_cases hl1 : lang = "python"
  · subst hl1
    rw [show PATTERNS "python" = some (pythonPat, 3) from rfl] at hP
    simp only [Option.some.injEq, Prod.mk.injEq] at hP
    obtain ⟨rfl, rfl⟩ := hP
    obtain ⟨v, hv, hne, hws⟩ :=
      matchList_name_group pythonPat 0 3 (by decide) (by decide) (by decide) hm
    obtain ⟨t, rfl⟩ := caps_shape1 hv
    exact name_head_good "python" (by decide) (truthy_cons_some hne) hne hws
  by_cases hl2 : lang = "javascript"
  · subst hl2
    rw [show PATTERNS "javascript" = some (jsPat, 6) from rfl] at hP
    simp only [Option.some.injEq, Prod.mk.injEq] at hP
    obtain ⟨rfl, rfl⟩ := hP
    rcases matchList_alt_inv hm with ⟨m1, h1 | h23⟩
    · obtain ⟨v, hv, hne, hws⟩ :=
        matchList_name_group jsB1 0 6 (by decide) (by decide) (by decide) h1
      obtain ⟨t, rfl⟩ := caps_shape1 hv
      exact name_head_good "javascript" (by decide) (truthy_cons_some hne) hne hws
    rcases matchList_alt_inv h23 with ⟨m2, h2 | h3⟩
    · have h0 : caps[0]? = some none := by
        simpa using matchList_hasGrp_false m2 jsB2 0 s' _ rest caps (by decide) h2
      have h1' : caps[1]? = some none := by
        simpa using matchList_hasGrp_false m2 jsB2 1 s' _ rest caps (by decide) h2
      obtain ⟨v, hv, hne, hws⟩ :=
        matchList_name_group jsB2 2 6 (by decide) (by decide) (by decide) h2
      obtain ⟨t0, rfl⟩ := caps_shape1 h0
      simp only [List.getElem?_cons_succ] at h1' hv
      obtain ⟨t1, rfl⟩ := caps_shape1 h1'
      simp only [List.getElem?_cons_succ] at hv
      obtain ⟨t2, rfl⟩ := caps_shape1 hv
      have ht : truthyGroups (none :: none :: some v :: t2) =
          v :: truthyGroups t2 := by
        rw [truthy_cons_none, truthy_cons_none, truthy_cons_some hne]
      exact name_head_good "javascript" (by decide) ht hne hws
    · have h0 : caps[0]? = some none := by
        simpa using matchList_hasGrp_false m2 jsB3 0 s' _ rest caps (by decide) h3
      have h1' : caps[1]? = some none := by
        simpa using matchList_hasGrp_false m2 jsB3 1 s' _ rest caps (by decide) h3
      have h2' : caps[2]? = some none := by
        simpa using matchList_hasGrp_false m2 jsB3 2 s' _ rest caps (by decide) h3
      have h3' : caps[3]? = some none := by
        simpa using matchList_hasGrp_false m2 jsB3 3 s' _ rest caps (by decide) h3
      obtain ⟨v, hv, hne, hws⟩ :=
        matchList_name_group jsB3 4 6 (by decide) (by decide) (by decide) h3
      obtain ⟨t0, rfl⟩ := caps_shape1 h0
      simp only [List.getElem?_cons_succ] at h1' h2' h3' hv
      obtain ⟨t1, rfl⟩ := caps_shape1 h1'
      simp only [List.getElem?_cons_succ] at h2' h3' hv
      obtain ⟨t2, rfl⟩ := caps_shape1 h2'
      simp only [List.getElem?_cons_succ] at h3' hv
      obtain ⟨t3, rfl⟩ := caps_shape1 h3'
      simp only [List.getElem?_cons_succ] at hv
      obtain ⟨t4, rfl⟩ := caps_shape1 hv
      have ht : truthyGroups (none :: none :: none :: none :: some v :: t4) =
          v :: truthyGroups t4 := by
        rw [truthy_cons_none, truthy_cons_none, truthy_cons_none,
          truthy_cons_none, truthy_cons_some hne]
      exact name_head_good "javascript" (by decide) ht hne hws
  by_cases hl3 : lang = "typescript"
  · subst hl3
    rw [show PATTERNS "typescript" = some (jsPat, 6) from rfl] at hP
    simp only [Option.some.injEq, Prod.mk.injEq] at hP
    obtain ⟨rfl, rfl⟩ := hP
    rcases matchList_alt_inv hm with ⟨m1, h1 | h23⟩
    · obtain ⟨v, hv, hne, hws⟩ :=
        matchList_name_group jsB1 0 6 (by decide) (by decide) (by decide) h1
      obtain ⟨t, rfl⟩ := caps_shape1 hv
      exact name_head_good "typescript" (by decide) (truthy_cons_some hne) hne hws
    rcases matchList_alt_inv h23 with ⟨m2, h2 | h3⟩
    · have h0 : caps[0]? = some none := by
        simpa using matchList_hasGrp_false m2 jsB2 0 s' _ rest caps (by decide) h2
      have h1' : caps[1]? = some none := by
        simpa using matchList_hasGrp_false m2 jsB2 1 s' _ rest caps (by decide) h2
      obtain ⟨v, hv, hne, hws⟩ :=
        matchList_name_group jsB2 2 6 (by decide) (by decide) (by decide) h2
      obtain ⟨t0, rfl⟩ := caps_shape1 h0
      simp only [List.getElem?_cons_succ] at h1' hv
      obtain ⟨t1, rfl⟩ := caps_shape1 h1'
      simp only [List.getElem?_cons_succ] at hv
      obtain ⟨t2, rfl⟩ := caps_shape1 hv
      have ht : truthyGroups (none :: none :: some v :: t2) =
          v :: truthyGroups t2 := by
        rw [truthy_cons_none, truthy_cons_none, truthy_cons_some hne]
      exact name_head_good "typescript" (by decide) ht hne hws
    · have h0 : caps[0]? = some none := by
        simpa using matchList_hasGrp_false m2 jsB3 0 s' _ rest caps (by decide) h3
      have h1' : caps[1]? = some none := by
        simpa using matchList_hasGrp_false m2 jsB3 1 s' _ rest caps (by decide) h3
      have h2' : caps[2]? = some none := by
        simpa using matchList_hasGrp_false m2 jsB3 2 s' _ rest caps (by decide) h3
      have h3' : caps[3]? = some none := by
        simpa using matchList_hasGrp_false m2 jsB3 3 s' _ rest caps (by decide) h3
      obtain ⟨v, hv, hne, hws⟩ :=
        matchList_name_group jsB3 4 6 (by decide) (by decide) (by decide) h3
      obtain ⟨t0, rfl⟩ := caps_shape1 h0
      simp only [List.getElem?_cons_succ] at h1' h2' h3' hv
      obtain ⟨t1, rfl⟩ := caps_shape1 h1'
      simp only [List.getElem?_cons_succ] at h2' h3' hv
      obtain ⟨t2, rfl⟩ := caps_shape1 h2'
      simp only [List.getElem?_cons_succ] at h3' hv
      obtain ⟨t3, rfl⟩ := caps_shape1 h3'
      simp only [List.getElem?_cons_succ] at hv
      obtain ⟨t4, rfl⟩ := caps_shape1 hv
      have ht : truthyGroups (none :: none :: none :: none :: some v :: t4) =
          v :: truthyGroups t4 := by
        rw [truthy_cons_none, truthy_cons_none, truthy_cons_none,
          truthy_cons_none, truthy_cons_some hne]
      exact name_head_good "typescript" (by decide) ht hne hws
  by_cases hl4 : lang = "rust"
  · subst hl4
    rw [show PATTERNS "rust" = some (rustPat, 3) from rfl] at hP
    simp only [Option.some.injEq, Prod.mk.injEq] at hP
    obtain ⟨rfl, rfl⟩ := hP
    obtain ⟨v, hv, hne, hws⟩ :=
      matchList_name_group rustPat 0 3 (by decide) (by decide) (by decide) hm
    obtain ⟨t, rfl⟩ := caps_shape1 hv
    exact name_head_good "rust" (by decide) (truthy_cons_some hne) hne hws
  by_cases hl5 : lang = "go"
  · subst hl5
    rw [show PATTERNS "go" = some (goPat, 3) from rfl] at hP
    simp only [Option.some.injEq, Prod.mk.injEq] at hP
    obtain ⟨rfl, rfl⟩ := hP
    obtain ⟨v, hv, hne, hws⟩ :=
      matchList_name_group goPat 0 3 (by decide) (by decide) (by decide) hm
    obtain ⟨t, rfl⟩ := caps_shape1 hv
    exact name_head_good "go" (by decide) (truthy_cons_some hne) hne hws
  by_cases hl6 : lang = "dart"
  · subst hl6
    rw [show PATTERNS "dart" = some (dartPat, 2) from rfl] at hP
    simp only [Option.some.injEq, Prod.mk.injEq] at hP
    obtain ⟨rfl, rfl⟩ := hP
    obtain ⟨v, hv, hne, hws⟩ :=
      matchList_name_group dartPat 0 2 (by decide) (by decide) (by decide) hm
    obtain ⟨t, rfl⟩ := caps_shape1 hv
    exact name_head_good "dart" (by decide) (truthy_cons_some hne) hne hws
  by_cases hl7 : lang = "java"
  · subst hl7
    rw [show PATTERNS "java" = some (javaPat, 2) from rfl] at hP
    simp only [Option.some.injEq, Prod.mk.injEq] at hP
    obtain ⟨rfl, rfl⟩ := hP
    obtain ⟨v, hv, hne, hws⟩ :=
      matchList_name_group javaPat 0 2 (by decide) (by decide) (by decide) hm
    obtain ⟨t, rfl⟩ := caps_shape1 hv
    exact name_head_good "java" (by decide) (truthy_cons_some hne) hne hws
  by_cases hl8 : lang = "kotlin"
  · subst hl8
    rw [show PATTERNS "kotlin" = some (kotlinPat, 2) from rfl] at hP
    simp only [Option.some.injEq, Prod.mk.injEq] at hP
    obtain ⟨rfl, rfl⟩ := hP
    obtain ⟨v, hv, hne, hws⟩ :=
      matchList_name_group kotlinPat 0 2 (by decide) (by decide) (by decide) hm
    obtain ⟨t, rfl⟩ := caps_shape1 hv
    exact name_head_good "kotlin" (by decide) (truthy_cons_some hne) hne hws
  by_cases hl9 : lang = "swift"
  · subst hl9
    rw [show PATTERNS "swift" = some (swiftPat, 2) from rfl] at hP
    simp only [Option.some.injEq, Prod.mk.injEq] at hP
    obtain ⟨rfl, rfl⟩ := hP
    obtain ⟨v, hv, hne, hws⟩ :=
      matchList_name_group swiftPat 0 2 (by decide) (by decide) (by decide) hm
    obtain ⟨t, rfl⟩ := caps_shape1 hv
    exact name_head_good "swift" (by decide) (truthy_cons_some hne) hne hws
  by_cases hl10 : lang = "c"
  · subst hl10
    rw [show PATTERNS "c" = some (cPat, 3) from rfl] at hP
    simp only [Option.some.injEq, Prod.mk.injEq] at hP
    obtain ⟨rfl, rfl⟩ := hP
    obtain ⟨v0, hv0, hne0, hws0⟩ :=
      matchList_name_group cPat 0 3 (by decide) (by decide) (by decide) hm
    obtain ⟨v1, hv1, hne1, hws1⟩ :=
      matchList_name_group cPat 1 3 (by decide) (by decide) (by decide) hm
    obtain ⟨t0, rfl⟩ := caps_shape1 hv0
    simp only [List.getElem?_cons_succ] at hv1
    obtain ⟨t1, rfl⟩ := caps_shape1 hv1
    have ht : truthyGroups (some v0 :: some v1 :: t1) =
        v0 :: v1 :: truthyGroups t1 := by
      rw [truthy_cons_some hne0, truthy_cons_some hne1]
    obtain ⟨sig, hsig, hname⟩ :=
      processMatch_ccpp_name "c" (Or.inl rfl) _ v0 v1 (truthyGroups t1) ht
    rcases hname with hname | hname
    · rw [pyStrip_of_noWS hws0] at hname
      exact ⟨sig, hsig, by rw [hname]; exact hne0,
        by rw [hname, pyStrip_of_noWS hws0]⟩
    · rw [pyStrip_of_noWS hws1] at hname
      exact ⟨sig, hsig, by rw [hname]; exact hne1,
        by rw [hname, pyStrip_of_noWS hws1]⟩
  by_cases hl11 : lang = "cpp"
  · subst hl11
    rw [show PATTERNS "cpp" = some (cppPat, 3) from rfl] at hP
    simp only [Option.some.injEq, Prod.mk.injEq] at hP
    obtain ⟨rfl, rfl⟩ := hP
    obtain ⟨v0, hv0, hne0, hws0⟩ :=
      matchList_name_group cppPat 0 3 (by decide) (by decide) (by decide) hm
    obtain ⟨v1, hv1, hne1, hws1⟩ :=
      matchList_name_group cppPat 1 3 (by decide) (by decide) (by decide) hm
    obtain ⟨t0, rfl⟩ := caps_shape1 hv0
    simp only [List.getElem?_cons_succ] at hv1
    obtain ⟨t1, rfl⟩ := caps_shape1 hv1
    have ht : truthyGroups (some v0 :: some v1 :: t1) =
        v0 :: v1 :: truthyGroups t1 := by
      rw [truthy_cons_some hne0, truthy_cons_some hne1]
    obtain ⟨sig, hsig, hname⟩ :=
      processMatch_ccpp_name "cpp" (Or.inr rfl) _ v0 v1 (truthyGroups t1) ht
    rcases hname with hname | hname
    · rw [pyStrip_of_noWS hws0] at hname
      exact ⟨sig, hsig, by rw [hname]; exact hne0,
        by rw [hname, pyStrip_of_noWS hws0]⟩
    · rw [pyStrip_of_noWS hws1] at hname
      exact ⟨sig, hsig, by rw [hname]; exact hne1,
        by rw [hname, pyStrip_of_noWS hws1]⟩
  by_cases hl12 : lang = "php"
  · subst hl12
    rw [show PATTERNS "php" = some (phpPat, 2) from rfl] at hP
    simp only [Option.some.injEq, Prod.mk.injEq] at hP
    obtain ⟨rfl, rfl⟩ := hP
    obtain ⟨v, hv, hne, hws⟩ :=
      matchList_name_group phpPat 0 2 (by decide) (by decide) (by decide) hm
    obtain ⟨t, rfl⟩ := caps_shape1 hv
    exact name_head_good "php" (by decide) (truthy_cons_some hne) hne hws
  exfalso
  simp only [PATTERNS, if_neg hl1, if_neg hl2, if_neg hl3, if_neg hl4,
    if_neg hl5, if_neg hl6, if_neg hl7, if_neg hl8, if_neg hl9,
    if_neg hl10, if_neg hl11, if_neg hl12] at hP
  exact Option.noConfusion hP

/-- C5: every signature in the sequence the extractor returns has a name that
is non-empty after trimming. -/
theorem extracted_name_nonempty (content : List Char) (lang : String) (sig : Sig)
    (h : sig ∈ extract_functions content lang) : pyStrip sig.name ≠ [] := by
  unfold extract_functions at h
  cases hP : PATTERNS lang with
  | none => rw [hP] at h; simp at h
  | some pk =>
    obtain ⟨pat, k⟩ := pk
    rw [hP] at h
    have h' : sig ∈ (finditer pat k content).filterMap (processMatch lang) := h
    rw [List.mem_filterMap] at h'
    obtain ⟨caps, hc, hpm⟩ := h'
    obtain ⟨sig', hsig', hne, hstr⟩ :=
      processMatch_lang_good lang pat k hP content caps hc
    rw [hpm] at hsig'
    obtain rfl : sig = sig' := Option.some.inj hsig'
    rw [hstr]
    exact hne

/-- C5 (witness): the signature extracted from `int add(int a, int b) {`. -/
theorem extracted_name_nonempty_example :
    pyStrip (Sig.mk "add".toList "int a, int b".toList "int".toList).name ≠ [] :=
  extracted_name_nonempty "int add(int a, int b) \x7b".toList "c" _ (by decide)

theorem getLanguage_not_ignored {ext lang : String}
    (h : getLanguage ext = some lang) : ext ∉ IGNORE_EXTS := by
  by_cases h1 : ext = ".py"
  · subst h1; decide
  by_cases h2 : ext = ".js"
  · subst h2; decide
  by_cases h3 : ext = ".jsx"
  · subst h3; decide
  by_cases h4 : ext = ".mjs"
  · subst h4; decide
  by_cases h5 : ext = ".ts"
  · subst h5; decide
  by_cases h6 : ext = ".tsx"
  · subst h6; decide
  by_cases h7 : ext = ".rs"
  · subst h7; decide
  by_cases h8 : ext = ".go"
  · subst h8; decide
  by_cases h9 : ext = ".dart"
  · subst h9; decide
  by_cases h10 : ext = ".java"
  · subst h10; decide
  by_cases h11 : ext = ".kt"
  · subst h11; decide
  by_cases h12 : ext = ".kts"
  · subst h12; decide
  by_cases h13 : ext = ".swift"
  · subst h13; decide
  by_cases h14 : ext = ".c"
  · subst h14; decide
  by_cases h15 : ext = ".h"
  · subst h15; decide
  by_cases h16 : ext = ".cpp"
  · subst h16; decide
  by_cases h17 : ext = ".hpp"
  · subst h17; decide
  by_cases h18 : ext = ".cc"
  · subst h18; decide
  by_cases h19 : ext = ".php"
  · subst h19; decide
  exfalso
  simp only [getLanguage, if_neg h1, if_neg h2, if_neg h3, if_neg h4, if_neg h5, if_neg h6, if_neg h7, if_neg h8, if_neg h9, if_neg h10, if_neg h11, if_neg h12, if_neg h13, if_neg h14, if_neg h15, if_neg h16, if_neg h17, if_neg h18, if_neg h19] at h
  exact Option.noConfusion h

theorem filterMap_length_all_some {α β : Type} (f : α → Option β) :
    ∀ (l : List α), (∀ x ∈ l, (f x).isSome = true) →
      (l.filterMap f).length = l.length := by
  intro l
  induction l with
  | nil => simp
  | cons x t ih =>
    intro h
    obtain ⟨y, hy⟩ := Option.isSome_iff_exists.mp (h x (by simp))
    simp [List.filterMap_cons, hy, ih (fun z hz => h z (by simp [hz]))]

theorem filterMap_take_all_some {α β : Type} (f : α → Option β) :
    ∀ (l : List α) (m : Nat), (∀ x ∈ l, (f x).isSome = true) →
      (l.take m).filterMap f = (l.filterMap f).take m := by
  intro l
  induction l with
  | nil => intro m h; simp
  | cons x t ih =>
    intro m h
    cases m with
    | zero => simp
    | succ m' =>
      obtain ⟨y, hy⟩ := Option.isSome_iff_exists.mp (h x (by simp))
      simp [List.filterMap_cons, hy, ih m' (fun z hz => h z (by simp [hz]))]

/-- C7: a readable, size-admissible file whose content produces more than 25
matches of its language's pattern is recorded with exactly 25 signatures: the
signatures of the first 25 matches, in match order. -/
theorem truncation_at_25 (f : FileInfo) (lang : String) (pat : Rx) (k : Nat)
    (hread : f.readable = true) (hsize : f.size < MAX_FILE_SIZE_BYTES)
    (hlang : getLanguage f.ext = some lang) (hP : PATTERNS lang = some (pat, k))
    (hcount : 25 < (finditer pat k f.content).length) :
    ∃ sigs, (processFile f).recorded = some sigs ∧ sigs.length = 25 ∧
      sigs = ((finditer pat k f.content).take 25).filterMap (processMatch lang) := by
  have hsome : ∀ caps ∈ finditer pat k f.content,
      (processMatch lang caps).isSome = true := by
    intro caps hc
    obtain ⟨sig, hsig, -, -⟩ := processMatch_lang_good lang pat k hP f.content caps hc
    rw [hsig]; rfl
  have hfuncs : extract_functions f.content lang =
      (finditer pat k f.content).filterMap (processMatch lang) := by
    unfold extract_functions
    rw [hP]
  have hlen : (extract_functions f.content lang).length =
      (finditer pat k f.content).length := by
    rw [hfuncs]
    exact filterMap_length_all_some _ _ hsome
  have hne : extract_functions f.content lang ≠ [] := by
    intro hnil
    rw [hnil] at hlen
    simp at hlen
    omega
  have hdec : decide (f.size < MAX_FILE_SIZE_BYTES) = true := decide_eq_true hsize
  unfold processFile
  rw [if_neg (getLanguage_not_ignored hlang)]
  simp only [hlang, hread, hdec, Bool.and_self, if_true, if_neg hne]
  refine ⟨(extract_functions f.content lang).take 25, rfl, ?_, ?_⟩
  · rw [List.length_take, hlen]
    omega
  · rw [hfuncs, ← filterMap_take_all_some _ _ _ hsome]

/-- C7 (witness): 26 copies of a javascript one-liner produce 26 matches and a
recorded list of exactly the first 25 signatures. -/
theorem truncation_at_25_example :
    ∃ sigs,
      (processFile ⟨".js", 104, true,
        List.flatten (List.replicate 26 "a()\x7b".toList)⟩).recorded = some sigs ∧
      sigs.length = 25 ∧
      sigs = ((finditer jsPat 6
          (List.flatten (List.replicate 26 "a()\x7b".toList))).take 25).filterMap
        (processMatch "javascript") :=
  truncation_at_25 ⟨".js", 104, true,
      List.flatten (List.replicate 26 "a()\x7b".toList)⟩ "javascript" jsPat 6
    rfl (by decide) rfl (by decide) (by decide)


end Analyze
